import Mathlib

/-!
Verification development for a distributed futures engine: a coordinator that
accepts work items, dispatches them to workers, tracks handle status, streams
completions, and for the notebook workload, a Rosenbrock search loop driven by
the completion stream.
-/

set_option maxRecDepth 8000

namespace DaskSpec

-- ===================== definitions =====================

/-- Modelled from the spec: the status set of a Handle.  The engine source
(dask.distributed) is not part of the repository, so the status lattice is
taken from the data-model section of the spec. -/
inductive HStatus
  | pending | running | finished | errored | cancelled | released
deriving DecidableEq, Fintype

/-- Terminal statuses of a handle: everything except pending and running. -/
def HStatus.isTerminal : HStatus → Bool
  | .pending => false
  | .running => false
  | _ => true

/-- Rank of a status along the monotone lifecycle: pending 0, running 1,
terminal 2. -/
def HStatus.rank : HStatus → ℕ
  | .pending => 0
  | .running => 1
  | _ => 2

/-- Modelled from the spec: the allowed single-step status transitions of a
Handle.  pending goes to running, running goes to finished or errored, and
cancelled or released are entered from any non-terminal state. -/
def canStep : HStatus → HStatus → Bool
  | .pending, .running => true
  | .running, .finished => true
  | .running, .errored => true
  | s, .cancelled => !s.isTerminal
  | s, .released => !s.isTerminal
  | _, _ => false

-- ---------- Rosenbrock search loop (from the notebook source) ----------

/-- Source embedding of the notebook function: compute the rosenbrock score of
a point and return the point together with the score.  The sleep is timing
only and is not modelled; real arithmetic is modelled by the rationals. -/
def rosenbrock (point : ℚ × ℚ) : (ℚ × ℚ) × ℚ :=
  (point, (1 - point.1) ^ 2 + 2 * (point.2 - point.1 ^ 2) ^ 2)

/-- The running best of the search loop.  bestScore is a WithTop rational so
that the initial value models the float infinity of the source. -/
structure BestState where
  bestScore : WithTop ℚ
  bestPoint : ℚ × ℚ

/-- One iteration of the best-so-far update in the notebook loop: if the new
score strictly improves, both the score and the point are replaced. -/
def updateBest (b : BestState) (r : (ℚ × ℚ) × ℚ) : BestState :=
  if (r.2 : WithTop ℚ) < b.bestScore then ⟨(r.2 : WithTop ℚ), r.1⟩ else b

/-- Initial best state of the loop: score infinity, point (0, 0). -/
def initBest : BestState := ⟨⊤, (0, 0)⟩

/-- Folding the best-so-far update over the list of results consumed from the
completion stream, in consumption order. -/
def runBest (rs : List ((ℚ × ℚ) × ℚ)) : BestState :=
  rs.foldl updateBest initBest

/-- Scale of the search loop after n iterations: the source starts at 5 and
multiplies by 0.99 each iteration. -/
def scaleAfter (n : ℕ) : ℚ := 5 * (99 / 100) ^ n

/-- Source embedding of the control flow of the search loop.  Each iteration
consumes one completed future from the stream (possible only when the tracked
count is positive), submits and tracks exactly one new future, then shrinks
the scale and breaks when it drops below 0.001.  The fuel bounds how many
stream deliveries are available; `some (iters, tracked)` means the loop exited
via its break after `iters` iterations with `tracked` futures still tracked,
`none` means the loop ended some other way (stream exhausted or fuel out). -/
def searchLoop : ℕ → ℚ → ℕ → ℕ → Option (ℕ × ℕ)
  | 0, _, _, _ => none
  | fuel + 1, scale, tracked, iters =>
    if tracked = 0 then none
    else
      let tracked2 := tracked - 1 + 1
      let scale2 := scale * (99 / 100)
      if scale2 < 1 / 1000 then some (iters + 1, tracked2)
      else searchLoop fuel scale2 tracked2 (iters + 1)

-- ---------- Coordinator / engine model ----------

/-- Modelled from the spec: an argument slot of a Work Item is either a
literal value or a Handle reference establishing a dependency edge.  The
engine source (dask.distributed) is not part of the repository. -/
inductive Arg
  | lit (v : ℤ)
  | ref (k : ℕ)
deriving DecidableEq

/-- Modelled from the spec: a Work Item is an immutable description of a
computation: a task key, a callable, and argument slots.  The callable may
fail, modelling a task execution error captured by the worker. -/
structure WorkItem where
  key : ℕ
  fn : List ℤ → Except String ℤ
  args : List Arg

/-- Dependency set of a work item: exactly the Handle-typed argument slots. -/
def depsOf (w : WorkItem) : List ℕ :=
  w.args.filterMap fun a => match a with
    | Arg.lit _ => none
    | Arg.ref k => some k

/-- Modelled from the spec: per-task status as tracked by the Coordinator for
the scheduling claims (cancellation and release are modelled separately with
`canStep` and `RefState`).  finished carries the result value, errored the
error payload. -/
inductive TStatus
  | pending
  | running
  | finished (v : ℤ)
  | errored (e : String)
deriving DecidableEq

/-- Terminal task statuses. -/
def TStatus.isTerminal : TStatus → Bool
  | .finished _ => true
  | .errored _ => true
  | _ => false

/-- Successfully finished task statuses. -/
def TStatus.isFinished : TStatus → Bool
  | .finished _ => true
  | _ => false

/-- Modelled from the spec: the Coordinator state together with the Completion
Stream state.  `completed` records task keys in the order the Coordinator
assigned their terminal statuses; `tracked`, `queue` and `delivered` are the
Completion Stream: tracked keys, undelivered enqueued outcomes in delivery
order, and outcomes already delivered to the consumer, in delivery order. -/
structure Sys where
  items : List WorkItem
  status : ℕ → TStatus
  dispatched : List ℕ
  completed : List ℕ
  tracked : List ℕ
  queue : List ℕ
  delivered : List ℕ

/-- Pointwise status update. -/
def setSt (f : ℕ → TStatus) (k : ℕ) (v : TStatus) : ℕ → TStatus :=
  fun j => if j = k then v else f j

/-- Look up the registered work item for a key. -/
def findItem (s : Sys) (k : ℕ) : Option WorkItem :=
  s.items.find? fun w => w.key == k

/-- Resolve the argument slots of a work item against the current statuses:
literals resolve to themselves, handle references resolve only once the
dependency is finished. -/
def resolveArgs (s : Sys) (w : WorkItem) : Option (List ℤ) :=
  w.args.mapM fun a => match a with
    | Arg.lit v => some v
    | Arg.ref k =>
      match s.status k with
      | TStatus.finished v => some v
      | _ => none

/-- Status resulting from a worker executing a work item on resolved argument
values: finished with the value, or errored with the captured exception. -/
def execOutcome (w : WorkItem) (vs : List ℤ) : TStatus :=
  match w.fn vs with
  | Except.ok v => TStatus.finished v
  | Except.error e => TStatus.errored e

/-- Modelled from the spec: when the Coordinator assigns a terminal status it
notifies the Completion Stream, which enqueues the key if it is tracked and
not yet enqueued or delivered (exactly-once delivery). -/
def enqueueNew (s : Sys) (k : ℕ) : List ℕ :=
  if k ∈ s.tracked ∧ k ∉ s.queue ∧ k ∉ s.delivered then s.queue ++ [k] else s.queue

/-- Events of the engine: dispatch a ready task to a worker, receive a worker
report, propagate a dependency error to a pending dependent, track one more
handle in the completion stream, deliver the next completed outcome to the
consumer. -/
inductive Ev
  | dispatch (k : ℕ)
  | report (k : ℕ)
  | propagate (k d : ℕ)
  | track (k : ℕ)
  | deliver

/-- Modelled from the spec: dispatch is possible only for a registered pending
task all of whose dependencies are finished; the task becomes running and is
recorded as dispatched. -/
def doDispatch (s : Sys) (k : ℕ) : Option Sys :=
  match findItem s k with
  | none => none
  | some w =>
    if s.status k = TStatus.pending ∧ ∀ d ∈ depsOf w, (s.status d).isFinished = true then
      some { s with status := setSt s.status k TStatus.running,
                    dispatched := s.dispatched ++ [k] }
    else none

/-- Modelled from the spec: a worker report for a running task resolves its
arguments, executes the callable, stores the terminal outcome on the handle,
appends the key to the completion order, and notifies the stream. -/
def doReport (s : Sys) (k : ℕ) : Option Sys :=
  match findItem s k with
  | none => none
  | some w =>
    if s.status k = TStatus.running then
      match resolveArgs s w with
      | none => none
      | some vs =>
        some { s with status := setSt s.status k (execOutcome w vs),
                      completed := s.completed ++ [k],
                      queue := enqueueNew s k }
    else none

/-- Modelled from the spec: a pending task one of whose dependencies is
errored is itself marked errored without being dispatched; this is a terminal
assignment, so it enters the completion order and notifies the stream. -/
def doPropagate (s : Sys) (k d : ℕ) : Option Sys :=
  match findItem s k with
  | none => none
  | some w =>
    match s.status d with
    | TStatus.errored e =>
      if s.status k = TStatus.pending ∧ d ∈ depsOf w then
        some { s with status := setSt s.status k (TStatus.errored e),
                      completed := s.completed ++ [k],
                      queue := enqueueNew s k }
      else none
    | _ => none

/-- Modelled from the spec: begin tracking one more handle, possible at any
time; a handle that is already terminal is immediately enqueued. -/
def doTrack (s : Sys) (k : ℕ) : Option Sys :=
  if k ∈ s.tracked then none
  else
    some { s with tracked := s.tracked ++ [k],
                  queue := if (s.status k).isTerminal = true ∧ k ∉ s.queue ∧ k ∉ s.delivered
                           then s.queue ++ [k] else s.queue }

/-- Modelled from the spec: the consumer takes the next enqueued outcome. -/
def doDeliver (s : Sys) : Option Sys :=
  match s.queue with
  | [] => none
  | k :: rest => some { s with queue := rest, delivered := s.delivered ++ [k] }

/-- One guarded engine step; `none` means the event is not enabled. -/
def applyEv (s : Sys) : Ev → Option Sys
  | Ev.dispatch k => doDispatch s k
  | Ev.report k => doReport s k
  | Ev.propagate k d => doPropagate s k d
  | Ev.track k => doTrack s k
  | Ev.deliver => doDeliver s

/-- Run a sequence of events; all guards must hold. -/
def run (s : Sys) : List Ev → Option Sys
  | [] => some s
  | e :: es =>
    match applyEv s e with
    | some s2 => run s2 es
    | none => none

/-- Initial coordinator state for a submitted batch of work items: every
status pending, nothing dispatched, completed, tracked or delivered. -/
def init (items : List WorkItem) : Sys :=
  ⟨items, fun _ => TStatus.pending, [], [], [], [], []⟩

/-- Checks that every track event in the run happens before the tracked
handle reaches a terminal status (handles added to the stream while still in
flight). -/
def tracksEarly (s : Sys) : List Ev → Bool
  | [] => true
  | e :: es =>
    (match e with
     | Ev.track k => !(s.status k).isTerminal
     | _ => true) &&
    (match applyEv s e with
     | some s2 => tracksEarly s2 es
     | none => true)

/-- Status history of one handle along a run, including the initial status. -/
def statusTrace (s : Sys) (k : ℕ) : List Ev → Option (List TStatus)
  | [] => some [s.status k]
  | e :: es =>
    match applyEv s e with
    | some s2 => (statusTrace s2 k es).map fun l => s.status k :: l
    | none => none

/-- Outcome visible on a handle: some result exactly when the status is
terminal. -/
def outcome : TStatus → Option (Except String ℤ)
  | TStatus.finished v => some (Except.ok v)
  | TStatus.errored e => some (Except.error e)
  | _ => none

/-- Modelled from the spec: `result()` on a handle blocks until the status is
terminal (modelled as `none` before then) and then returns the stored value
or re-raises the stored error. -/
def resultOf (s : Sys) (k : ℕ) : Option (Except String ℤ) :=
  outcome (s.status k)

/-- Collect the outcomes of a batch of handles; `none` as soon as any handle
in the batch is not yet terminal. -/
def optList (ks : List ℕ) (f : ℕ → Option (Except String ℤ)) :
    Option (List (Except String ℤ)) :=
  match ks with
  | [] => some []
  | k :: rest =>
    match f k with
    | none => none
    | some o =>
      match optList rest f with
      | none => none
      | some os => some (o :: os)

/-- First error of a batch of terminal outcomes, or all the values. -/
def exceptList (os : List (Except String ℤ)) : Except String (List ℤ) :=
  match os with
  | [] => Except.ok []
  | o :: rest =>
    match o with
    | Except.error e => Except.error e
    | Except.ok v =>
      match exceptList rest with
      | Except.error e => Except.error e
      | Except.ok vs => Except.ok (v :: vs)

/-- Modelled from the spec: `gather` blocks until every handle of the batch is
terminal (modelled as `none` before then), then returns the values, or the
first encountered error if any handle is errored. -/
def gather (s : Sys) (ks : List ℕ) : Option (Except String (List ℤ)) :=
  match optList ks (fun k => outcome (s.status k)) with
  | none => none
  | some os => some (exceptList os)

/-- Source embedding of the notebook toy function inc (the sleep is timing
only and is not modelled). -/
def inc (x : ℤ) : ℤ := x + 1

/-- Wrap a unary function as a work-item callable; wrong arity is a captured
execution error. -/
def call1 (f : ℤ → ℤ) : List ℤ → Except String ℤ
  | [x] => Except.ok (f x)
  | _ => Except.error "arity"

/-- The single submission of the notebook scenario submit(inc, 1). -/
def itemsInc : List WorkItem := [⟨0, call1 inc, [Arg.lit 1]⟩]

/-- Two independent tasks, used for completion-stream runs. -/
def items2 : List WorkItem := [⟨0, call1 inc, [Arg.lit 1]⟩, ⟨1, call1 inc, [Arg.lit 5]⟩]

/-- A run that completes both tasks and only then tracks them, in the
opposite order of their completion. -/
def esLate : List Ev :=
  [Ev.dispatch 0, Ev.report 0, Ev.dispatch 1, Ev.report 1,
   Ev.track 1, Ev.track 0, Ev.deliver, Ev.deliver]

/-- A run that tracks both tasks before any completes. -/
def esEarly : List Ev :=
  [Ev.track 0, Ev.track 1, Ev.dispatch 0, Ev.report 0,
   Ev.dispatch 1, Ev.report 1, Ev.deliver, Ev.deliver]

/-- Final state of the late-tracking run. -/
def lateRun : Option Sys := run (init items2) esLate

/-- A callable that always fails, modelling a task whose execution raises. -/
def failFn : List ℤ → Except String ℤ := fun _ => Except.error "boom"

/-- Task 0 errors; task 1 depends on task 0 through a handle argument. -/
def itemsAB : List WorkItem := [⟨0, failFn, []⟩, ⟨1, call1 inc, [Arg.ref 0]⟩]

/-- dispatch A, A errors, the error propagates to B. -/
def esErr : List Ev := [Ev.dispatch 0, Ev.report 0, Ev.propagate 1 0]

/-- Modelled from the spec: `map` submits one Work Item per input, with fresh
consecutive keys in input order. -/
def mapSubmit (f : ℤ → ℤ) (k0 : ℕ) : List ℤ → List WorkItem
  | [] => []
  | x :: xs => ⟨k0, call1 f, [Arg.lit x]⟩ :: mapSubmit f (k0 + 1) xs

-- ---------- Cycle detection (C6) ----------

/-- Keys of a dependency graph given as an association list key to deps. -/
def graphKeys (g : List (ℕ × List ℕ)) : List ℕ := g.map Prod.fst

/-- One round of Kahn peeling: keep exactly the nodes that still have a
dependency inside the graph; nodes with no in-graph dependency are removed. -/
def stepPeel (g : List (ℕ × List ℕ)) : List (ℕ × List ℕ) :=
  g.filter fun p => p.2.any fun d => decide (d ∈ graphKeys g)

/-- Iterated peeling. -/
def peel : ℕ → List (ℕ × List ℕ) → List (ℕ × List ℕ)
  | 0, g => g
  | n + 1, g => peel n (stepPeel g)

/-- Modelled from the spec: submission-time cycle check — after as many
peeling rounds as there are nodes, an acyclic graph is empty, so a non-empty
residue means a cycle. -/
def hasCycle (g : List (ℕ × List ℕ)) : Bool :=
  !(peel g.length g).isEmpty

/-- Dependency graph of a batch of work items. -/
def graphOf (items : List WorkItem) : List (ℕ × List ℕ) :=
  items.map fun w => (w.key, depsOf w)

/-- A set of keys witnessing a cycle: non-empty, and every key in it has an
entry in the graph with a dependency back into the set. -/
def IsCycleSet (g : List (ℕ × List ℕ)) (C : List ℕ) : Prop :=
  C ≠ [] ∧ ∀ k ∈ C, ∃ p ∈ g, p.1 = k ∧ ∃ d ∈ p.2, d ∈ C

/-- Submission-time errors. -/
inductive SubmitError
  | CyclicGraphError
  | KeyCollisionError
deriving DecidableEq

/-- Modelled from the spec: `compute`/`submit` of a batch fails synchronously
with CyclicGraphError when the resulting dependency graph has a cycle, with
KeyCollisionError on a duplicate key, and otherwise registers the new items
(all pending, nothing dispatched). -/
def computeSubmit (s : Sys) (new : List WorkItem) : Except SubmitError Sys :=
  if hasCycle (graphOf (s.items ++ new)) = true then
    Except.error SubmitError.CyclicGraphError
  else if ((s.items ++ new).map fun w => w.key).Nodup then
    Except.ok { s with items := s.items ++ new }
  else Except.error SubmitError.KeyCollisionError

/-- Coordinator state after a submission attempt: unchanged on error. -/
def submitState (s : Sys) (new : List WorkItem) : Sys :=
  match computeSubmit s new with
  | Except.ok s2 => s2
  | Except.error _ => s

/-- The two-task cycle A depends-on B, B depends-on A. -/
def cyc2 : List WorkItem := [⟨0, call1 inc, [Arg.ref 1]⟩, ⟨1, call1 inc, [Arg.ref 0]⟩]

/-- A state with handle 1 finished, 2 errored, 3 finished and all other keys
pending, for the gather scenario. -/
def gWitState : Sys :=
  ⟨[], fun k => if k = 1 then TStatus.finished 10
    else if k = 2 then TStatus.errored "boom"
    else if k = 3 then TStatus.finished 30
    else TStatus.pending, [], [], [], [], []⟩

/-- The state produced by propagating the error of dependency d onto pending
task k (the some-branch of doPropagate). -/
def propagatedState (s : Sys) (k : ℕ) (e : String) : Sys :=
  { s with status := setSt s.status k (TStatus.errored e),
           completed := s.completed ++ [k],
           queue := enqueueNew s k }

/-- The engine invariants maintained by every event. -/
structure Inv (s : Sys) : Prop where
  dispDeps : ∀ k, k ∈ s.dispatched → ∀ w, findItem s k = some w →
    ∀ d, d ∈ depsOf w → (s.status d).isFinished = true
  runDisp : ∀ k, (s.status k = TStatus.running ∨ ∃ v, s.status k = TStatus.finished v) →
    k ∈ s.dispatched
  queueTracked : ∀ k, k ∈ s.queue → k ∈ s.tracked
  delivTracked : ∀ k, k ∈ s.delivered → k ∈ s.tracked
  termEnq : ∀ k, k ∈ s.tracked → (s.status k).isTerminal = true →
    k ∈ s.queue ∨ k ∈ s.delivered
  enqTerm : ∀ k, k ∈ s.queue ∨ k ∈ s.delivered → (s.status k).isTerminal = true
  dqNodup : (s.delivered ++ s.queue).Nodup
  complTerm : ∀ k, k ∈ s.completed → (s.status k).isTerminal = true

/-- Delivery order agrees with completion order restricted to tracked keys. -/
def DQC (s : Sys) : Prop :=
  s.delivered ++ s.queue = s.completed.filter fun k => decide (k ∈ s.tracked)

-- ---------- Reference counting and release (C8) ----------

/-- Modelled from the spec: the reference-counting state of one handle whose
result is resident on the cluster: the count of live references, whether the
cluster still holds the result, and whether the Coordinator still knows the
key. -/
structure RefState where
  refs : ℕ
  clusterHeld : Bool
  known : Bool
deriving DecidableEq

/-- Reference-count events: acquire copies an existing reference, release
drops one, reclaim is the Coordinator releasing the cluster-side result and
forgetting the key once the count reaches zero. -/
inductive RefEv
  | acquire
  | release
  | reclaim

/-- Modelled from the spec: guarded reference-count transitions.  A new
reference can only be acquired from a live one; reclaim requires a zero
count. -/
def applyRef (s : RefState) : RefEv → Option RefState
  | RefEv.acquire => if 0 < s.refs then some { s with refs := s.refs + 1 } else none
  | RefEv.release => if 0 < s.refs then some { s with refs := s.refs - 1 } else none
  | RefEv.reclaim =>
    if s.refs = 0 ∧ s.clusterHeld = true then some ⟨0, false, false⟩ else none

/-- Run a sequence of reference-count events. -/
def runRef (s : RefState) : List RefEv → Option RefState
  | [] => some s
  | e :: es =>
    match applyRef s e with
    | some s2 => runRef s2 es
    | none => none

/-- A freshly created handle: one reference, result held, key known. -/
def initRef : RefState := ⟨1, true, true⟩

-- ===================== theorems =====================

theorem searchLoop_succ_eq (fuel : ℕ) (scale : ℚ) (tracked iters : ℕ) :
    searchLoop (fuel + 1) scale tracked iters =
      if tracked = 0 then none
      else if scale * (99 / 100) < 1 / 1000 then some (iters + 1, tracked - 1 + 1)
      else searchLoop fuel (scale * (99 / 100)) (tracked - 1 + 1) (iters + 1) := rfl

theorem canStep_rank : ∀ a b, canStep a b = true → a.rank < b.rank := by decide

theorem canStep_src_not_terminal : ∀ a b, canStep a b = true → a.isTerminal = false := by
  decide

theorem rank_le_two : ∀ a : HStatus, a.rank ≤ 2 := by decide

theorem chain_rank_lt (tr : List HStatus)
    (h : tr.Chain' (fun a b => canStep a b = true)) :
    ∀ j (hj : j < tr.length) i (hi : i < tr.length), i < j →
      (tr.get ⟨i, hi⟩).rank < (tr.get ⟨j, hj⟩).rank := by
  intro j
  induction j with
  | zero => intro hj i hi hij; omega
  | succ m ih =>
    intro hj i hi hij
    have hm : m < tr.length := by omega
    have hstep : canStep (tr.get ⟨m, hm⟩) (tr.get ⟨m + 1, hj⟩) = true :=
      List.chain'_iff_get.mp h m (by omega)
    rcases Nat.lt_succ_iff_lt_or_eq.mp hij with h1 | h1
    · exact lt_trans (ih hm i hi h1) (canStep_rank _ _ hstep)
    · subst h1; exact canStep_rank _ _ hstep

/-- Claim C3: along every valid operation sequence on a Handle the status rank
is strictly monotone (pending, then running, then a terminal status, with
cancelled and released enterable only from non-terminal states), the status
never returns to pending after leaving it, a terminal status is never left,
and consequently a status history has at most 3 entries. -/
theorem handle_status_monotone (tr : List HStatus)
    (hchain : tr.Chain' (fun a b => canStep a b = true))
    (hhead : tr.head? = some HStatus.pending) :
    (∀ i j (hi : i < tr.length) (hj : j < tr.length), i < j →
        (tr.get ⟨i, hi⟩).rank < (tr.get ⟨j, hj⟩).rank) ∧
    (∀ i (hi : i < tr.length), 0 < i → tr.get ⟨i, hi⟩ ≠ HStatus.pending) ∧
    (∀ i (hi : i < tr.length), (tr.get ⟨i, hi⟩).isTerminal = true → i + 1 = tr.length) ∧
    tr.length ≤ 3 := by
  have hmono : ∀ i j (hi : i < tr.length) (hj : j < tr.length), i < j →
      (tr.get ⟨i, hi⟩).rank < (tr.get ⟨j, hj⟩).rank :=
    fun i j hi hj hij => chain_rank_lt tr hchain j hj i hi hij
  have hlen : 0 < tr.length := by
    cases tr with
    | nil => simp at hhead
    | cons a l => simp
  have hget0 : tr.get ⟨0, hlen⟩ = HStatus.pending := by
    cases tr with
    | nil => simp at hhead
    | cons a l =>
      simp only [List.head?_cons, Option.some.injEq] at hhead
      simpa using hhead
  refine ⟨hmono, ?_, ?_, ?_⟩
  · intro i hi hpos hpend
    have := hmono 0 i hlen hi hpos
    rw [hget0, hpend] at this
    exact absurd this (by decide)
  · intro i hi hterm
    by_contra hne
    have hi1 : i + 1 < tr.length := by omega
    have hstep : canStep (tr.get ⟨i, hi⟩) (tr.get ⟨i + 1, hi1⟩) = true :=
      List.chain'_iff_get.mp hchain i (by omega)
    have := canStep_src_not_terminal _ _ hstep
    rw [hterm] at this
    exact absurd this (by decide)
  · by_contra hlong
    push_neg at hlong
    have h0 : (0 : ℕ) < tr.length := hlen
    have h1 : (1 : ℕ) < tr.length := by omega
    have h2 : (2 : ℕ) < tr.length := by omega
    have h3 : (3 : ℕ) < tr.length := by omega
    have r01 := hmono 0 1 h0 h1 (by omega)
    have r12 := hmono 1 2 h1 h2 (by omega)
    have r23 := hmono 2 3 h2 h3 (by omega)
    have rb := rank_le_two (tr.get ⟨3, h3⟩)
    omega

theorem handle_status_monotone_witness :
    [HStatus.pending, HStatus.running, HStatus.finished].Chain'
      (fun a b => canStep a b = true) ∧
    [HStatus.pending, HStatus.running, HStatus.finished].length ≤ 3 := by
  have hc : [HStatus.pending, HStatus.running, HStatus.finished].Chain'
      (fun a b => canStep a b = true) := by
    simp only [List.chain'_cons, List.chain'_singleton, and_true]
    exact ⟨rfl, rfl⟩
  exact ⟨hc, (handle_status_monotone _ hc rfl).2.2.2⟩

-- ---------- C9 ----------

theorem updateBest_score (b : BestState) (r : (ℚ × ℚ) × ℚ) :
    (updateBest b r).bestScore = min b.bestScore (r.2 : WithTop ℚ) := by
  unfold updateBest
  split
  · next h => simp [min_eq_right h.le]
  · next h => simp [min_eq_left (not_lt.mp h)]

theorem foldBest_score (rs : List ((ℚ × ℚ) × ℚ)) :
    ∀ b : BestState, (rs.foldl updateBest b).bestScore =
      rs.foldl (fun a r => min a (r.2 : WithTop ℚ)) b.bestScore := by
  induction rs with
  | nil => intro b; rfl
  | cons r rs ih =>
    intro b
    simp only [List.foldl_cons]
    rw [ih, updateBest_score]

theorem foldBest_achieves (rs : List ((ℚ × ℚ) × ℚ)) :
    ∀ b : BestState, rs.foldl updateBest b = b ∨
      ∃ q s, (q, s) ∈ rs ∧ rs.foldl updateBest b = ⟨(s : WithTop ℚ), q⟩ := by
  induction rs with
  | nil => intro b; exact Or.inl rfl
  | cons r rs ih =>
    intro b
    have hstep : updateBest b r = b ∨ updateBest b r = ⟨(r.2 : WithTop ℚ), r.1⟩ := by
      unfold updateBest
      split
      · exact Or.inr rfl
      · exact Or.inl rfl
    simp only [List.foldl_cons]
    rcases ih (updateBest b r) with h | ⟨q, s, hm, he⟩
    · rcases hstep with h2 | h2
      · exact Or.inl (by rw [h, h2])
      · refine Or.inr ⟨r.1, r.2, ?_, by rw [h, h2]⟩
        simp
    · exact Or.inr ⟨q, s, List.mem_cons_of_mem _ hm, he⟩

theorem foldMin_le (rs : List ((ℚ × ℚ) × ℚ)) :
    ∀ a : WithTop ℚ, rs.foldl (fun x r => min x (r.2 : WithTop ℚ)) a ≤ a := by
  induction rs with
  | nil => intro a; exact le_refl a
  | cons r rs ih =>
    intro a
    simp only [List.foldl_cons]
    exact le_trans (ih _) (min_le_left _ _)

/-- Claim C9: in the search loop, the best score so far equals the minimum of
infinity and all scores consumed so far (hence is non-increasing from one
iteration to the next), the best point achieves it (initially (0, 0)), every
rosenbrock score is non-negative, and once at least one rosenbrock result has
been consumed the best score is a non-negative finite rational. -/
theorem rosenbrock_best_invariant (rs : List ((ℚ × ℚ) × ℚ)) :
    (runBest rs).bestScore = rs.foldl (fun a r => min a (r.2 : WithTop ℚ)) ⊤ ∧
    (∀ r, (runBest (rs ++ [r])).bestScore ≤ (runBest rs).bestScore) ∧
    (runBest rs = initBest ∨
      ∃ q s, (q, s) ∈ rs ∧ runBest rs = ⟨(s : WithTop ℚ), q⟩) ∧
    (∀ p : ℚ × ℚ, 0 ≤ (rosenbrock p).2) ∧
    (rs ≠ [] → (∀ r ∈ rs, ∃ p, r = rosenbrock p) →
      ∃ s : ℚ, (runBest rs).bestScore = (s : WithTop ℚ) ∧ 0 ≤ s) := by
  have hscore : (runBest rs).bestScore =
      rs.foldl (fun a r => min a (r.2 : WithTop ℚ)) ⊤ := foldBest_score rs initBest
  have hpos : ∀ p : ℚ × ℚ, 0 ≤ (rosenbrock p).2 := by
    intro p
    unfold rosenbrock
    positivity
  refine ⟨hscore, ?_, foldBest_achieves rs initBest, hpos, ?_⟩
  · intro r
    unfold runBest
    rw [List.foldl_append]
    simp only [List.foldl_cons, List.foldl_nil]
    rw [updateBest_score]
    exact min_le_left _ _
  · intro hne hall
    have hlt : (runBest rs).bestScore < ⊤ := by
      cases rs with
      | nil => exact absurd rfl hne
      | cons r rs2 =>
        rw [hscore]
        simp only [List.foldl_cons]
        refine lt_of_le_of_lt (foldMin_le rs2 _) ?_
        exact lt_of_le_of_lt (min_le_right _ _) (WithTop.coe_lt_top _)
    rcases foldBest_achieves rs initBest with h | ⟨q, s, hm, he⟩
    · rw [show runBest rs = rs.foldl updateBest initBest from rfl, h] at hlt
      exact absurd hlt (by simp [initBest])
    · obtain ⟨p, hp⟩ := hall (q, s) hm
      refine ⟨s, by rw [show runBest rs = rs.foldl updateBest initBest from rfl, he], ?_⟩
      have : s = (rosenbrock p).2 := congrArg Prod.snd hp
      rw [this]
      exact hpos p

theorem rosenbrock_best_invariant_witness :
    ∃ s : ℚ, (runBest [rosenbrock (1, 1)]).bestScore = (s : WithTop ℚ) ∧ 0 ≤ s := by
  refine (rosenbrock_best_invariant [rosenbrock (1, 1)]).2.2.2.2 (by simp) ?_
  intro r hr
  exact ⟨(1, 1), (List.mem_singleton.mp hr)⟩

-- ---------- C10 ----------

theorem scaleAfter_succ (n : ℕ) : scaleAfter (n + 1) = scaleAfter n * (99 / 100) := by
  unfold scaleAfter
  rw [pow_succ]
  ring

theorem scaleAfter_lt_iff (n : ℕ) :
    scaleAfter n < 1 / 1000 ↔ (5000 : ℚ) * 99 ^ n < 100 ^ n := by
  unfold scaleAfter
  rw [div_pow, ← mul_div_assoc, div_lt_div_iff₀ (by positivity) (by norm_num : (0 : ℚ) < 1000)]
  constructor <;> intro h <;> nlinarith [h]

theorem scaleAfter_stop_848 : scaleAfter 848 < 1 / 1000 := by
  rw [scaleAfter_lt_iff]
  have h : (5000 * 99 ^ 848 : ℕ) < (100 ^ 848 : ℕ) := by decide
  exact_mod_cast h

theorem scaleAfter_not_stop_847 : ¬ scaleAfter 847 < 1 / 1000 := by
  rw [scaleAfter_lt_iff]
  have h : (100 ^ 847 : ℕ) ≤ (5000 * 99 ^ 847 : ℕ) := by decide
  exact not_lt.mpr (by exact_mod_cast h)

theorem scaleAfter_anti {k n : ℕ} (h : k ≤ n) : scaleAfter n ≤ scaleAfter k := by
  unfold scaleAfter
  have hp : (99 / 100 : ℚ) ^ n ≤ (99 / 100 : ℚ) ^ k :=
    pow_le_pow_of_le_one (by norm_num) (by norm_num) h
  nlinarith [hp]

theorem searchLoop_none (fuel : ℕ) :
    ∀ n iters, (∀ k, n < k → k ≤ n + fuel → ¬ scaleAfter k < 1 / 1000) →
      searchLoop fuel (scaleAfter n) 10 iters = none := by
  induction fuel with
  | zero => intro n iters _; rfl
  | succ m ih =>
    intro n iters h
    rw [searchLoop_succ_eq, if_neg (by decide : ¬ (10 : ℕ) = 0), ← scaleAfter_succ,
      if_neg (h (n + 1) (by omega) (by omega)),
      show (10 : ℕ) - 1 + 1 = 10 from rfl]
    exact ih (n + 1) (iters + 1) (fun k hk1 hk2 => h k (by omega) (by omega))

theorem searchLoop_stop (fuel : ℕ) :
    ∀ n iters, (∀ k, n < k → k ≤ n + fuel → ¬ scaleAfter k < 1 / 1000) →
      scaleAfter (n + fuel + 1) < 1 / 1000 →
      searchLoop (fuel + 1) (scaleAfter n) 10 iters = some (iters + fuel + 1, 10) := by
  induction fuel with
  | zero =>
    intro n iters _ hs
    rw [searchLoop_succ_eq, if_neg (by decide : ¬ (10 : ℕ) = 0), ← scaleAfter_succ,
      if_pos (by simpa using hs)]
  | succ m ih =>
    intro n iters h hs
    rw [searchLoop_succ_eq, if_neg (by decide : ¬ (10 : ℕ) = 0), ← scaleAfter_succ,
      if_neg (h (n + 1) (by omega) (by omega)),
      show (10 : ℕ) - 1 + 1 = 10 from rfl]
    have hrec := ih (n + 1) (iters + 1) (fun k hk1 hk2 => h k (by omega) (by omega))
      (by have he : n + 1 + m + 1 = n + (m + 1) + 1 := by omega
          rw [he]; exact hs)
    rw [show iters + (m + 1) + 1 = iters + 1 + m + 1 from by omega]
    exact hrec

/-- Claim C10: the search loop terminates via its break and never by exhausting
the completion stream: with 10 futures initially tracked and one added per
iteration the tracked count stays 10, and since the scale starts at 5 and is
multiplied by 0.99 with the break condition checked after the add, the loop
breaks at exactly iteration 848 (it cannot break earlier because the scale is
still at least 0.001 after any of the first 847 iterations). -/
theorem search_loop_termination :
    searchLoop 848 5 10 0 = some (848, 10) ∧
    searchLoop 847 5 10 0 = none ∧
    scaleAfter 848 < 1 / 1000 ∧
    ∀ k, k < 848 → ¬ scaleAfter k < 1 / 1000 := by
  have hnot : ∀ k, k < 848 → ¬ scaleAfter k < 1 / 1000 := by
    intro k hk hlt
    exact scaleAfter_not_stop_847 (lt_of_le_of_lt (scaleAfter_anti (by omega)) hlt)
  have h5 : (5 : ℚ) = scaleAfter 0 := by unfold scaleAfter; norm_num
  refine ⟨?_, ?_, scaleAfter_stop_848, hnot⟩
  · rw [h5]
    have := searchLoop_stop 847 0 0 (fun k hk1 _ => hnot k (by omega))
      (by norm_num; exact scaleAfter_stop_848)
    simpa using this
  · rw [h5]
    exact searchLoop_none 847 0 0 (fun k hk1 _ => hnot k (by omega))

theorem search_loop_termination_witness :
    ¬ scaleAfter 0 < 1 / 1000 ∧ searchLoop 848 5 10 0 = some (848, 10) :=
  ⟨search_loop_termination.2.2.2 0 (by omega), search_loop_termination.1⟩

-- ---------- engine invariants ----------

theorem setSt_apply (f : ℕ → TStatus) (k : ℕ) (v : TStatus) (j : ℕ) :
    setSt f k v j = if j = k then v else f j := rfl

theorem execOutcome_terminal (w : WorkItem) (vs : List ℤ) :
    (execOutcome w vs).isTerminal = true := by
  unfold execOutcome
  cases w.fn vs <;> rfl

theorem nodup_append_singleton {l : List ℕ} {a : ℕ} (h : l.Nodup) (ha : a ∉ l) :
    (l ++ [a]).Nodup := by
  rw [List.nodup_append]
  refine ⟨h, List.nodup_singleton a, ?_⟩
  intro x hx hxa
  have hxa2 : x = a := by simpa using hxa
  subst hxa2
  exact ha hx

theorem inv_dispatch {s s2 : Sys} {k : ℕ} (hs : Inv s)
    (h : doDispatch s k = some s2) : Inv s2 := by
  unfold doDispatch at h
  split at h
  · exact Option.noConfusion h
  next w hfi =>
    split at h
    next hc =>
      obtain ⟨hpend, hdeps⟩ := hc
      injection h with h
      subst h
      refine ⟨?_, ?_, hs.queueTracked, hs.delivTracked, ?_, ?_, hs.dqNodup, ?_⟩
      · intro k0 hk0 w0 hfi0 d hd
        have hfi0s : findItem s k0 = some w0 := hfi0
        have hfin : (s.status d).isFinished = true := by
          rcases List.mem_append.mp hk0 with h1 | h1
          · exact hs.dispDeps k0 h1 w0 hfi0s d hd
          · have hk0k : k0 = k := by simpa using h1
            subst hk0k
            have hw : w0 = w := Option.some.inj (hfi0s.symm.trans hfi)
            exact hdeps d (by rwa [hw] at hd)
        have hne : d ≠ k := by
          intro hdk
          rw [hdk, hpend] at hfin
          exact absurd hfin (by simp [TStatus.isFinished])
        show ((setSt s.status k TStatus.running) d).isFinished = true
        rw [setSt_apply, if_neg hne]
        exact hfin
      · intro k0 h0
        by_cases hk : k0 = k
        · subst hk
          exact List.mem_append.mpr (Or.inr (by simp))
        · have h1 : s.status k0 = TStatus.running ∨ ∃ v, s.status k0 = TStatus.finished v := by
            simpa [setSt, hk] using h0
          exact List.mem_append.mpr (Or.inl (hs.runDisp k0 h1))
      · intro k0 htr hterm
        have h2 : ((setSt s.status k TStatus.running) k0).isTerminal = true := hterm
        by_cases hk : k0 = k
        · rw [setSt_apply, if_pos hk] at h2
          exact absurd h2 (by simp [TStatus.isTerminal])
        · rw [setSt_apply, if_neg hk] at h2
          exact hs.termEnq k0 htr h2
      · intro k0 h0
        have hold := hs.enqTerm k0 h0
        by_cases hk : k0 = k
        · subst hk
          rw [hpend] at hold
          exact absurd hold (by simp [TStatus.isTerminal])
        · show ((setSt s.status k TStatus.running) k0).isTerminal = true
          rw [setSt_apply, if_neg hk]
          exact hold
      · intro k0 h0
        have hold := hs.complTerm k0 h0
        by_cases hk : k0 = k
        · subst hk
          rw [hpend] at hold
          exact absurd hold (by simp [TStatus.isTerminal])
        · show ((setSt s.status k TStatus.running) k0).isTerminal = true
          rw [setSt_apply, if_neg hk]
          exact hold
    next => exact Option.noConfusion h

theorem inv_report {s s2 : Sys} {k : ℕ} (hs : Inv s)
    (h : doReport s k = some s2) : Inv s2 := by
  unfold doReport at h
  split at h
  · exact Option.noConfusion h
  next w hfi =>
    split at h
    next hrun =>
      split at h
      · exact Option.noConfusion h
      next vs hres =>
        injection h with h
        subst h
        have hterm2 : (execOutcome w vs).isTerminal = true := execOutcome_terminal w vs
        have hkq : k ∉ s.queue := by
          intro hq
          have := hs.enqTerm k (Or.inl hq)
          rw [hrun] at this
          exact absurd this (by simp [TStatus.isTerminal])
        have hkd : k ∉ s.delivered := by
          intro hq
          have := hs.enqTerm k (Or.inr hq)
          rw [hrun] at this
          exact absurd this (by simp [TStatus.isTerminal])
        refine ⟨?_, ?_, ?_, hs.delivTracked, ?_, ?_, ?_, ?_⟩
        · intro k0 hk0 w0 hfi0 d hd
          have hfi0s : findItem s k0 = some w0 := hfi0
          have hfin := hs.dispDeps k0 hk0 w0 hfi0s d hd
          have hne : d ≠ k := by
            intro hdk
            rw [hdk, hrun] at hfin
            exact absurd hfin (by simp [TStatus.isFinished])
          show ((setSt s.status k (execOutcome w vs)) d).isFinished = true
          rw [setSt_apply, if_neg hne]
          exact hfin
        · intro k0 h0
          by_cases hk : k0 = k
          · subst hk
            exact hs.runDisp k0 (Or.inl hrun)
          · have h1 : s.status k0 = TStatus.running ∨ ∃ v, s.status k0 = TStatus.finished v := by
              simpa [setSt, hk] using h0
            exact hs.runDisp k0 h1
        · intro k0 h0
          have h0b : k0 ∈ enqueueNew s k := h0
          unfold enqueueNew at h0b
          split at h0b
          next hc =>
            rcases List.mem_append.mp h0b with h1 | h1
            · exact hs.queueTracked k0 h1
            · have hk0 : k0 = k := by simpa using h1
              subst hk0
              exact hc.1
          next => exact hs.queueTracked k0 h0b
        · intro k0 htr hterm
          have htrb : k0 ∈ s.tracked := htr
          have htermb : ((setSt s.status k (execOutcome w vs)) k0).isTerminal = true := hterm
          show k0 ∈ enqueueNew s k ∨ k0 ∈ s.delivered
          by_cases hk : k0 = k
          · subst hk
            left
            unfold enqueueNew
            rw [if_pos ⟨htrb, hkq, hkd⟩]
            exact List.mem_append.mpr (Or.inr (by simp))
          · rw [setSt_apply, if_neg hk] at htermb
            rcases hs.termEnq k0 htrb htermb with h2 | h2
            · left
              unfold enqueueNew
              split
              · exact List.mem_append.mpr (Or.inl h2)
              · exact h2
            · right
              exact h2
        · intro k0 h0
          have h0b : k0 ∈ enqueueNew s k ∨ k0 ∈ s.delivered := h0
          by_cases hk : k0 = k
          · subst hk
            show ((setSt s.status k0 (execOutcome w vs)) k0).isTerminal = true
            rw [setSt_apply, if_pos rfl]
            exact hterm2
          · have hold : k0 ∈ s.queue ∨ k0 ∈ s.delivered := by
              rcases h0b with h1 | h1
              · left
                unfold enqueueNew at h1
                split at h1
                next =>
                  rcases List.mem_append.mp h1 with h2 | h2
                  · exact h2
                  · exact absurd (by simpa using h2) hk
                next => exact h1
              · right
                exact h1
            have := hs.enqTerm k0 hold
            show ((setSt s.status k (execOutcome w vs)) k0).isTerminal = true
            rw [setSt_apply, if_neg hk]
            exact this
        · show (s.delivered ++ enqueueNew s k).Nodup
          unfold enqueueNew
          split
          next hc =>
            rw [← List.append_assoc]
            refine nodup_append_singleton hs.dqNodup ?_
            intro hmem
            rcases List.mem_append.mp hmem with h1 | h1
            · exact hc.2.2 h1
            · exact hc.2.1 h1
          next => exact hs.dqNodup
        · intro k0 h0
          have h0b : k0 ∈ s.completed ++ [k] := h0
          by_cases hk : k0 = k
          · subst hk
            show ((setSt s.status k0 (execOutcome w vs)) k0).isTerminal = true
            rw [setSt_apply, if_pos rfl]
            exact hterm2
          · have h1 : k0 ∈ s.completed := by
              rcases List.mem_append.mp h0b with h2 | h2
              · exact h2
              · exact absurd (by simpa using h2) hk
            have := hs.complTerm k0 h1
            show ((setSt s.status k (execOutcome w vs)) k0).isTerminal = true
            rw [setSt_apply, if_neg hk]
            exact this
    next => exact Option.noConfusion h

theorem inv_propagate {s s2 : Sys} {k d : ℕ} (hs : Inv s)
    (h : doPropagate s k d = some s2) : Inv s2 := by
  unfold doPropagate at h
  split at h
  · exact Option.noConfusion h
  next w hfi =>
    split at h
    next e hde =>
      split at h
      next hc =>
        obtain ⟨hpend, hdep⟩ := hc
        injection h with h
        subst h
        have hterm2 : (TStatus.errored e).isTerminal = true := rfl
        have hkq : k ∉ s.queue := by
          intro hq
          have := hs.enqTerm k (Or.inl hq)
          rw [hpend] at this
          exact absurd this (by simp [TStatus.isTerminal])
        have hkd : k ∉ s.delivered := by
          intro hq
          have := hs.enqTerm k (Or.inr hq)
          rw [hpend] at this
          exact absurd this (by simp [TStatus.isTerminal])
        refine ⟨?_, ?_, ?_, hs.delivTracked, ?_, ?_, ?_, ?_⟩
        · intro k0 hk0 w0 hfi0 d0 hd0
          have hfi0s : findItem s k0 = some w0 := hfi0
          have hfin := hs.dispDeps k0 hk0 w0 hfi0s d0 hd0
          have hne : d0 ≠ k := by
            intro hdk
            rw [hdk, hpend] at hfin
            exact absurd hfin (by simp [TStatus.isFinished])
          show ((setSt s.status k (TStatus.errored e)) d0).isFinished = true
          rw [setSt_apply, if_neg hne]
          exact hfin
        · intro k0 h0
          have h0b : (setSt s.status k (TStatus.errored e)) k0 = TStatus.running ∨
              ∃ v, (setSt s.status k (TStatus.errored e)) k0 = TStatus.finished v := h0
          by_cases hk : k0 = k
          · rw [setSt_apply, if_pos hk] at h0b
            rcases h0b with h1 | ⟨v, h1⟩ <;> exact TStatus.noConfusion h1
          · rw [setSt_apply, if_neg hk] at h0b
            exact hs.runDisp k0 h0b
        · intro k0 h0
          have h0b : k0 ∈ enqueueNew s k := h0
          unfold enqueueNew at h0b
          split at h0b
          next hc2 =>
            rcases List.mem_append.mp h0b with h1 | h1
            · exact hs.queueTracked k0 h1
            · have hk0 : k0 = k := by simpa using h1
              subst hk0
              exact hc2.1
          next => exact hs.queueTracked k0 h0b
        · intro k0 htr hterm
          have htrb : k0 ∈ s.tracked := htr
          have htermb : ((setSt s.status k (TStatus.errored e)) k0).isTerminal = true := hterm
          show k0 ∈ enqueueNew s k ∨ k0 ∈ s.delivered
          by_cases hk : k0 = k
          · subst hk
            left
            unfold enqueueNew
            rw [if_pos ⟨htrb, hkq, hkd⟩]
            exact List.mem_append.mpr (Or.inr (by simp))
          · rw [setSt_apply, if_neg hk] at htermb
            rcases hs.termEnq k0 htrb htermb with h2 | h2
            · left
              unfold enqueueNew
              split
              · exact List.mem_append.mpr (Or.inl h2)
              · exact h2
            · right
              exact h2
        · intro k0 h0
          have h0b : k0 ∈ enqueueNew s k ∨ k0 ∈ s.delivered := h0
          by_cases hk : k0 = k
          · subst hk
            show ((setSt s.status k0 (TStatus.errored e)) k0).isTerminal = true
            rw [setSt_apply, if_pos rfl]
            exact hterm2
          · have hold : k0 ∈ s.queue ∨ k0 ∈ s.delivered := by
              rcases h0b with h1 | h1
              · left
                unfold enqueueNew at h1
                split at h1
                next =>
                  rcases List.mem_append.mp h1 with h2 | h2
                  · exact h2
                  · exact absurd (by simpa using h2) hk
                next => exact h1
              · right
                exact h1
            have := hs.enqTerm k0 hold
            show ((setSt s.status k (TStatus.errored e)) k0).isTerminal = true
            rw [setSt_apply, if_neg hk]
            exact this
        · show (s.delivered ++ enqueueNew s k).Nodup
          unfold enqueueNew
          split
          next hc2 =>
            rw [← List.append_assoc]
            refine nodup_append_singleton hs.dqNodup ?_
            intro hmem
            rcases List.mem_append.mp hmem with h1 | h1
            · exact hc2.2.2 h1
            · exact hc2.2.1 h1
          next => exact hs.dqNodup
        · intro k0 h0
          have h0b : k0 ∈ s.completed ++ [k] := h0
          by_cases hk : k0 = k
          · subst hk
            show ((setSt s.status k0 (TStatus.errored e)) k0).isTerminal = true
            rw [setSt_apply, if_pos rfl]
            exact hterm2
          · have h1 : k0 ∈ s.completed := by
              rcases List.mem_append.mp h0b with h2 | h2
              · exact h2
              · exact absurd (by simpa using h2) hk
            have := hs.complTerm k0 h1
            show ((setSt s.status k (TStatus.errored e)) k0).isTerminal = true
            rw [setSt_apply, if_neg hk]
            exact this
      next => exact Option.noConfusion h
    all_goals exact Option.noConfusion h

theorem inv_track {s s2 : Sys} {k : ℕ} (hs : Inv s)
    (h : doTrack s k = some s2) : Inv s2 := by
  unfold doTrack at h
  split at h
  · exact Option.noConfusion h
  next hnt =>
    injection h with h
    subst h
    refine ⟨hs.dispDeps, hs.runDisp, ?_, ?_, ?_, ?_, ?_, hs.complTerm⟩
    · intro k0 h0
      have h0b : k0 ∈ (if (s.status k).isTerminal = true ∧ k ∉ s.queue ∧ k ∉ s.delivered
          then s.queue ++ [k] else s.queue) := h0
      show k0 ∈ s.tracked ++ [k]
      split at h0b
      next =>
        rcases List.mem_append.mp h0b with h1 | h1
        · exact List.mem_append.mpr (Or.inl (hs.queueTracked k0 h1))
        · exact List.mem_append.mpr (Or.inr h1)
      next => exact List.mem_append.mpr (Or.inl (hs.queueTracked k0 h0b))
    · intro k0 h0
      have h0b : k0 ∈ s.delivered := h0
      exact List.mem_append.mpr (Or.inl (hs.delivTracked k0 h0b))
    · intro k0 htr hterm
      have htrb : k0 ∈ s.tracked ++ [k] := htr
      have htermb : (s.status k0).isTerminal = true := hterm
      show k0 ∈ (if (s.status k).isTerminal = true ∧ k ∉ s.queue ∧ k ∉ s.delivered
          then s.queue ++ [k] else s.queue) ∨ k0 ∈ s.delivered
      rcases List.mem_append.mp htrb with h1 | h1
      · rcases hs.termEnq k0 h1 htermb with h2 | h2
        · left
          split
          · exact List.mem_append.mpr (Or.inl h2)
          · exact h2
        · right
          exact h2
      · have hk0 : k0 = k := by simpa using h1
        subst hk0
        by_cases hq : k0 ∈ s.queue
        · left
          split
          · exact List.mem_append.mpr (Or.inl hq)
          · exact hq
        by_cases hd : k0 ∈ s.delivered
        · right
          exact hd
        · left
          rw [if_pos ⟨htermb, hq, hd⟩]
          exact List.mem_append.mpr (Or.inr (by simp))
    · intro k0 h0
      have h0b : k0 ∈ (if (s.status k).isTerminal = true ∧ k ∉ s.queue ∧ k ∉ s.delivered
          then s.queue ++ [k] else s.queue) ∨ k0 ∈ s.delivered := h0
      show (s.status k0).isTerminal = true
      rcases h0b with h1 | h1
      · split at h1
        next hc =>
          rcases List.mem_append.mp h1 with h2 | h2
          · exact hs.enqTerm k0 (Or.inl h2)
          · have hk0 : k0 = k := by simpa using h2
            subst hk0
            exact hc.1
        next => exact hs.enqTerm k0 (Or.inl h1)
      · exact hs.enqTerm k0 (Or.inr h1)
    · show (s.delivered ++ (if (s.status k).isTerminal = true ∧ k ∉ s.queue ∧ k ∉ s.delivered
          then s.queue ++ [k] else s.queue)).Nodup
      split
      next hc =>
        rw [← List.append_assoc]
        refine nodup_append_singleton hs.dqNodup ?_
        intro hmem
        rcases List.mem_append.mp hmem with h1 | h1
        · exact hc.2.2 h1
        · exact hc.2.1 h1
      next => exact hs.dqNodup

theorem inv_deliver {s s2 : Sys} (hs : Inv s)
    (h : doDeliver s = some s2) : Inv s2 := by
  unfold doDeliver at h
  split at h
  · exact Option.noConfusion h
  next k rest hq =>
    injection h with h
    subst h
    refine ⟨hs.dispDeps, hs.runDisp, ?_, ?_, ?_, ?_, ?_, hs.complTerm⟩
    · intro k0 h0
      have h0b : k0 ∈ rest := h0
      exact hs.queueTracked k0 (by rw [hq]; exact List.mem_cons_of_mem _ h0b)
    · intro k0 h0
      have h0b : k0 ∈ s.delivered ++ [k] := h0
      rcases List.mem_append.mp h0b with h1 | h1
      · exact hs.delivTracked k0 h1
      · have hk0 : k0 = k := by simpa using h1
        subst hk0
        exact hs.queueTracked k0 (by rw [hq]; simp)
    · intro k0 htr hterm
      have htrb : k0 ∈ s.tracked := htr
      have htermb : (s.status k0).isTerminal = true := hterm
      show k0 ∈ rest ∨ k0 ∈ s.delivered ++ [k]
      rcases hs.termEnq k0 htrb htermb with h1 | h1
      · rw [hq] at h1
        rcases List.mem_cons.mp h1 with h2 | h2
        · subst h2
          right
          exact List.mem_append.mpr (Or.inr (by simp))
        · left
          exact h2
      · right
        exact List.mem_append.mpr (Or.inl h1)
    · intro k0 h0
      have h0b : k0 ∈ rest ∨ k0 ∈ s.delivered ++ [k] := h0
      show (s.status k0).isTerminal = true
      apply hs.enqTerm k0
      rcases h0b with h1 | h1
      · left
        rw [hq]
        exact List.mem_cons_of_mem _ h1
      · rcases List.mem_append.mp h1 with h2 | h2
        · right
          exact h2
        · have hk0 : k0 = k := by simpa using h2
          subst hk0
          left
          rw [hq]
          simp
    · show ((s.delivered ++ [k]) ++ rest).Nodup
      have he : (s.delivered ++ [k]) ++ rest = s.delivered ++ s.queue := by
        rw [List.append_assoc, hq]
        rfl
      rw [he]
      exact hs.dqNodup

theorem inv_applyEv {s s2 : Sys} {e : Ev} (hs : Inv s)
    (h : applyEv s e = some s2) : Inv s2 := by
  cases e with
  | dispatch k => exact inv_dispatch hs h
  | report k => exact inv_report hs h
  | propagate k d => exact inv_propagate hs h
  | track k => exact inv_track hs h
  | deliver => exact inv_deliver hs h

theorem inv_run : ∀ (es : List Ev) (s t : Sys), Inv s → run s es = some t → Inv t := by
  intro es
  induction es with
  | nil =>
    intro s t hs h
    exact (Option.some.inj h) ▸ hs
  | cons e rest ih =>
    intro s t hs h
    unfold run at h
    split at h
    next s3 ha => exact ih s3 t (inv_applyEv hs ha) h
    next => exact Option.noConfusion h

theorem inv_init (items : List WorkItem) : Inv (init items) := by
  constructor <;> simp [init]

theorem not_enqueued_of_not_terminal {s : Sys} {k : ℕ} (hs : Inv s)
    (hterm : (s.status k).isTerminal = false) : k ∉ s.queue ∧ k ∉ s.delivered := by
  constructor
  · intro hq
    rw [hs.enqTerm k (Or.inl hq)] at hterm
    exact Bool.noConfusion hterm
  · intro hq
    rw [hs.enqTerm k (Or.inr hq)] at hterm
    exact Bool.noConfusion hterm

theorem dqc_dispatch {s s2 : Sys} {k : ℕ} (hd : DQC s)
    (h : doDispatch s k = some s2) : DQC s2 := by
  unfold doDispatch at h
  split at h
  · exact Option.noConfusion h
  next w hfi =>
    split at h
    next hc =>
      injection h with h
      subst h
      exact hd
    next => exact Option.noConfusion h

theorem dqc_report {s s2 : Sys} {k : ℕ} (hs : Inv s) (hd : DQC s)
    (h : doReport s k = some s2) : DQC s2 := by
  unfold doReport at h
  split at h
  · exact Option.noConfusion h
  next w hfi =>
    split at h
    next hrun =>
      split at h
      · exact Option.noConfusion h
      next vs hres =>
        injection h with h
        subst h
        have hnt : (s.status k).isTerminal = false := by rw [hrun]; rfl
        obtain ⟨hkq, hkd⟩ := not_enqueued_of_not_terminal hs hnt
        show s.delivered ++ enqueueNew s k =
          (s.completed ++ [k]).filter fun j => decide (j ∈ s.tracked)
        rw [List.filter_append]
        unfold enqueueNew
        by_cases hkt : k ∈ s.tracked
        · rw [if_pos ⟨hkt, hkq, hkd⟩, ← List.append_assoc, hd]
          congr 1
          simp [hkt]
        · have hcond : ¬ (k ∈ s.tracked ∧ k ∉ s.queue ∧ k ∉ s.delivered) := fun hc => hkt hc.1
          rw [if_neg hcond, hd]
          have hf : List.filter (fun j => decide (j ∈ s.tracked)) [k] = [] := by simp [hkt]
          rw [hf, List.append_nil]
    next => exact Option.noConfusion h

theorem dqc_propagate {s s2 : Sys} {k d : ℕ} (hs : Inv s) (hd : DQC s)
    (h : doPropagate s k d = some s2) : DQC s2 := by
  unfold doPropagate at h
  split at h
  · exact Option.noConfusion h
  next w hfi =>
    split at h
    next e hde =>
      split at h
      next hc =>
        injection h with h
        subst h
        have hnt : (s.status k).isTerminal = false := by rw [hc.1]; rfl
        obtain ⟨hkq, hkd⟩ := not_enqueued_of_not_terminal hs hnt
        show s.delivered ++ enqueueNew s k =
          (s.completed ++ [k]).filter fun j => decide (j ∈ s.tracked)
        rw [List.filter_append]
        unfold enqueueNew
        by_cases hkt : k ∈ s.tracked
        · rw [if_pos ⟨hkt, hkq, hkd⟩, ← List.append_assoc, hd]
          congr 1
          simp [hkt]
        · have hcond : ¬ (k ∈ s.tracked ∧ k ∉ s.queue ∧ k ∉ s.delivered) := fun hc2 => hkt hc2.1
          rw [if_neg hcond, hd]
          have hf : List.filter (fun j => decide (j ∈ s.tracked)) [k] = [] := by simp [hkt]
          rw [hf, List.append_nil]
      next => exact Option.noConfusion h
    all_goals exact Option.noConfusion h

theorem dqc_track {s s2 : Sys} {k : ℕ} (hs : Inv s) (hd : DQC s)
    (hterm : (s.status k).isTerminal = false)
    (h : doTrack s k = some s2) : DQC s2 := by
  unfold doTrack at h
  split at h
  · exact Option.noConfusion h
  next hnt =>
    injection h with h
    subst h
    have hcond : ¬ ((s.status k).isTerminal = true ∧ k ∉ s.queue ∧ k ∉ s.delivered) := by
      intro hc
      rw [hc.1] at hterm
      exact Bool.noConfusion hterm
    show s.delivered ++ (if (s.status k).isTerminal = true ∧ k ∉ s.queue ∧ k ∉ s.delivered
        then s.queue ++ [k] else s.queue) =
      s.completed.filter fun j => decide (j ∈ s.tracked ++ [k])
    rw [if_neg hcond]
    have hcongr : ∀ x ∈ s.completed,
        (decide (x ∈ s.tracked ++ [k])) = (decide (x ∈ s.tracked)) := by
      intro x hx
      have hxk : x ≠ k := by
        intro he
        have hxterm := hs.complTerm x hx
        rw [he, hterm] at hxterm
        exact Bool.noConfusion hxterm
      rw [decide_eq_decide]
      simp [List.mem_append, hxk]
    rw [List.filter_congr hcongr]
    exact hd

theorem dqc_deliver {s s2 : Sys} (hd : DQC s) (h : doDeliver s = some s2) : DQC s2 := by
  unfold doDeliver at h
  split at h
  · exact Option.noConfusion h
  next k rest hq =>
    injection h with h
    subst h
    show (s.delivered ++ [k]) ++ rest = s.completed.filter fun j => decide (j ∈ s.tracked)
    rw [List.append_assoc, show ([k] ++ rest : List ℕ) = k :: rest from rfl, ← hq]
    exact hd

theorem dqc_applyEv {s s2 : Sys} {e : Ev} (hs : Inv s) (hd : DQC s)
    (h : applyEv s e = some s2)
    (htr : ∀ k, e = Ev.track k → (s.status k).isTerminal = false) : DQC s2 := by
  cases e with
  | dispatch k => exact dqc_dispatch hd h
  | report k => exact dqc_report hs hd h
  | propagate k d => exact dqc_propagate hs hd h
  | track k => exact dqc_track hs hd (htr k rfl) h
  | deliver => exact dqc_deliver hd h

theorem dqc_run : ∀ (es : List Ev) (s t : Sys), Inv s → DQC s → tracksEarly s es = true →
    run s es = some t → DQC t := by
  intro es
  induction es with
  | nil =>
    intro s t _ hd _ h
    exact (Option.some.inj h) ▸ hd
  | cons e rest ih =>
    intro s t hs hd htr h
    unfold run at h
    unfold tracksEarly at htr
    rw [Bool.and_eq_true] at htr
    obtain ⟨htr1, htr2⟩ := htr
    split at h
    next s3 ha =>
      rw [ha] at htr2
      refine ih s3 t (inv_applyEv hs ha) ?_ htr2 h
      refine dqc_applyEv hs hd ha ?_
      intro k hek
      subst hek
      simpa using htr1
    next => exact Option.noConfusion h

-- ---------- C1 ----------

/-- Claim C1 (amended): for every run of the engine, the Completion Stream
delivers outcomes of tracked handles only, each at most once and only after
the handle reached a terminal status, and every tracked terminal handle is
delivered once the queue is drained; and provided every handle is tracked
before its terminal status is assigned, the delivered sequence followed by
the pending queue is exactly the Coordinator completion order restricted to
tracked keys, so the relative order of any two delivered outcomes equals the
order their terminal statuses were assigned.  (Without the proviso a handle
tracked after completion is enqueued at tracking time, see the
counterexample.) -/
theorem asCompleted_delivery (items : List WorkItem) (es : List Ev) (s : Sys)
    (h : run (init items) es = some s) :
    s.delivered.Nodup ∧
    (∀ k, k ∈ s.delivered → (s.status k).isTerminal = true) ∧
    (∀ k, k ∈ s.delivered → k ∈ s.tracked) ∧
    (s.queue = [] → ∀ k, k ∈ s.tracked → (s.status k).isTerminal = true → k ∈ s.delivered) ∧
    (tracksEarly (init items) es = true →
      s.delivered ++ s.queue = s.completed.filter fun k => decide (k ∈ s.tracked)) := by
  have hinv := inv_run es (init items) s (inv_init items) h
  refine ⟨?_, ?_, fun k hk => hinv.delivTracked k hk, ?_, ?_⟩
  · exact (List.nodup_append.mp hinv.dqNodup).1
  · intro k hk
    exact hinv.enqTerm k (Or.inr hk)
  · intro hq k htr hterm
    rcases hinv.termEnq k htr hterm with h1 | h1
    · rw [hq] at h1
      cases h1
    · exact h1
  · intro htr
    exact dqc_run es (init items) s (inv_init items) (by simp [DQC, init]) htr h

theorem asCompleted_delivery_witness :
    ∃ s, run (init items2) esEarly = some s ∧
      s.delivered.Nodup ∧
      s.delivered ++ s.queue = s.completed.filter fun k => decide (k ∈ s.tracked) := by
  refine ⟨_, rfl, ?_, ?_⟩
  · exact (asCompleted_delivery items2 esEarly _ rfl).1
  · exact (asCompleted_delivery items2 esEarly _ rfl).2.2.2.2 rfl

/-- Claim C1 counterexample: a run in which both tasks complete (0 first,
then 1) before being tracked; the stream then delivers in tracking order
[1, 0], not in the Coordinator completion order [0, 1], refuting the
unconditional ordering part of the claim. -/
theorem asCompleted_order_cex :
    (lateRun.map fun s => (s.delivered, s.completed.filter fun k => decide (k ∈ s.tracked),
        s.queue, s.tracked.all fun k => (s.status k).isTerminal)) =
      some ([1, 0], [0, 1], [], true) ∧
    ([1, 0] : List ℕ) ≠ [0, 1] :=
  ⟨rfl, by decide⟩

-- ---------- C4 ----------

/-- Claim C4: in every reachable engine state, a dispatched task has all its
dependencies finished (so a task is never dispatched before its dependencies
finished); a task with an errored dependency was never dispatched and is
itself pending or errored; and if it is still pending the error-propagation
step is enabled and marks it errored without dispatching it. -/
theorem dependency_gating (items : List WorkItem) (es : List Ev) (s : Sys)
    (h : run (init items) es = some s) :
    (∀ k, k ∈ s.dispatched → ∀ w, findItem s k = some w →
      ∀ d, d ∈ depsOf w → (s.status d).isFinished = true) ∧
    (∀ k w d e, findItem s k = some w → d ∈ depsOf w → s.status d = TStatus.errored e →
      k ∉ s.dispatched ∧
        (s.status k = TStatus.pending ∨ ∃ e2, s.status k = TStatus.errored e2)) ∧
    (∀ k w d e, findItem s k = some w → d ∈ depsOf w → s.status d = TStatus.errored e →
      s.status k = TStatus.pending →
      ∃ s2, applyEv s (Ev.propagate k d) = some s2 ∧
        s2.status k = TStatus.errored e ∧ s2.dispatched = s.dispatched) := by
  have hinv := inv_run es (init items) s (inv_init items) h
  refine ⟨hinv.dispDeps, ?_, ?_⟩
  · intro k w d e hfi hd hde
    have hnd : k ∉ s.dispatched := by
      intro hk
      have hfin := hinv.dispDeps k hk w hfi d hd
      rw [hde] at hfin
      exact Bool.noConfusion hfin
    refine ⟨hnd, ?_⟩
    cases hsk : s.status k with
    | pending => exact Or.inl rfl
    | running => exact absurd (hinv.runDisp k (Or.inl hsk)) hnd
    | finished v => exact absurd (hinv.runDisp k (Or.inr ⟨v, hsk⟩)) hnd
    | errored e2 => exact Or.inr ⟨e2, rfl⟩
  · intro k w d e hfi hd hde hp
    refine ⟨propagatedState s k e, ?_, ?_, rfl⟩
    · show doPropagate s k d = some (propagatedState s k e)
      unfold doPropagate propagatedState
      rw [hfi, hde]
      show (if s.status k = TStatus.pending ∧ d ∈ depsOf w
          then some { s with status := setSt s.status k (TStatus.errored e),
                             completed := s.completed ++ [k],
                             queue := enqueueNew s k }
          else none) = _
      rw [if_pos ⟨hp, hd⟩]
    · show (setSt s.status k (TStatus.errored e)) k = TStatus.errored e
      rw [setSt_apply, if_pos rfl]

theorem dependency_gating_witness :
    ∃ s, run (init itemsAB) esErr = some s ∧ 1 ∉ s.dispatched ∧
      s.status 1 = TStatus.errored "boom" := by
  refine ⟨_, rfl, ?_, rfl⟩
  have h := dependency_gating itemsAB esErr _ rfl
  exact (h.2.1 1 ⟨1, call1 inc, [Arg.ref 0]⟩ 0 "boom" rfl (by decide) rfl).1

-- ---------- C2 ----------

/-- Claim C2: for the submission submit(inc, 1), the handle status passes
through exactly pending, then running, then finished, and result() on the
finished handle returns 2 = inc 1. -/
theorem submit_inc_lifecycle :
    statusTrace (init itemsInc) 0 [Ev.dispatch 0, Ev.report 0] =
      some [TStatus.pending, TStatus.running, TStatus.finished 2] ∧
    (run (init itemsInc) [Ev.dispatch 0, Ev.report 0]).map (fun s => resultOf s 0) =
      some (some (Except.ok 2)) ∧
    inc 1 = 2 :=
  ⟨rfl, rfl, rfl⟩

-- ---------- C5 ----------

theorem optList_none (f : ℕ → Option (Except String ℤ)) :
    ∀ ks, (∃ k, k ∈ ks ∧ f k = none) → optList ks f = none := by
  intro ks
  induction ks with
  | nil =>
    rintro ⟨k, hk, _⟩
    cases hk
  | cons j rest ih =>
    rintro ⟨k, hk, hf⟩
    unfold optList
    rcases List.mem_cons.mp hk with h1 | h1
    · subst h1
      rw [hf]
    · cases hfj : f j with
      | none => rfl
      | some o => rw [ih ⟨k, h1, hf⟩]

theorem optList_some (f : ℕ → Option (Except String ℤ)) :
    ∀ ks, (∀ k ∈ ks, f k ≠ none) → ∃ os, optList ks f = some os := by
  intro ks
  induction ks with
  | nil =>
    intro _
    exact ⟨[], rfl⟩
  | cons j rest ih =>
    intro h
    obtain ⟨os, hos⟩ := ih fun k hk => h k (List.mem_cons_of_mem _ hk)
    cases hfj : f j with
    | none => exact absurd hfj (h j (List.mem_cons_self _ _))
    | some o =>
      refine ⟨o :: os, ?_⟩
      unfold optList
      rw [hfj, hos]

theorem gather_error_aux (f : ℕ → Option (Except String ℤ)) (e : String) :
    ∀ ks1 (k : ℕ) (ks2 : List ℕ), (∀ j ∈ ks1, ∃ v, f j = some (Except.ok v)) →
      f k = some (Except.error e) → (∀ j ∈ ks2, f j ≠ none) →
      ∃ os, optList (ks1 ++ k :: ks2) f = some os ∧ exceptList os = Except.error e := by
  intro ks1
  induction ks1 with
  | nil =>
    intro k ks2 _ hk h2
    obtain ⟨os2, hos2⟩ := optList_some f ks2 h2
    refine ⟨Except.error e :: os2, ?_, rfl⟩
    show optList (k :: ks2) f = _
    unfold optList
    rw [hk, hos2]
  | cons j rest ih =>
    intro k ks2 h1 hk h2
    obtain ⟨v, hv⟩ := h1 j (List.mem_cons_self _ _)
    obtain ⟨os, hos, he⟩ := ih k ks2 (fun x hx => h1 x (List.mem_cons_of_mem _ hx)) hk h2
    refine ⟨Except.ok v :: os, ?_, ?_⟩
    · show optList (j :: (rest ++ k :: ks2)) f = _
      unfold optList
      rw [hv, hos]
    · show exceptList (Except.ok v :: os) = Except.error e
      unfold exceptList
      rw [he]

/-- Claim C5: gather on a batch of handles yields nothing while any handle of
the batch is not yet terminal (the error is never surfaced before the full
batch has resolved), and once the whole batch is terminal it yields the first
encountered error when the batch contains an errored handle. -/
theorem gather_first_error_after_batch (s : Sys) (ks ks1 ks2 : List ℕ) (k : ℕ) (e : String) :
    ((∃ k0, k0 ∈ ks ∧ (s.status k0).isTerminal = false) → gather s ks = none) ∧
    (ks = ks1 ++ k :: ks2 → (∀ j ∈ ks1, ∃ v, s.status j = TStatus.finished v) →
      s.status k = TStatus.errored e → (∀ j ∈ ks2, (s.status j).isTerminal = true) →
      gather s ks = some (Except.error e)) := by
  constructor
  · rintro ⟨k0, hk0, hterm⟩
    have hnone : outcome (s.status k0) = none := by
      cases hsk : s.status k0 with
      | pending => rfl
      | running => rfl
      | finished v =>
        rw [hsk] at hterm
        exact absurd hterm (by simp [TStatus.isTerminal])
      | errored e2 =>
        rw [hsk] at hterm
        exact absurd hterm (by simp [TStatus.isTerminal])
    have h1 := optList_none (fun j => outcome (s.status j)) ks ⟨k0, hk0, hnone⟩
    unfold gather
    rw [h1]
  · intro hks h1 hk h2
    subst hks
    have hfk : outcome (s.status k) = some (Except.error e) := by rw [hk]; rfl
    have hf1 : ∀ j ∈ ks1, ∃ v, outcome (s.status j) = some (Except.ok v) := by
      intro j hj
      obtain ⟨v, hv⟩ := h1 j hj
      exact ⟨v, by rw [hv]; rfl⟩
    have hf2 : ∀ j ∈ ks2, outcome (s.status j) ≠ none := by
      intro j hj
      have hjt := h2 j hj
      cases hsj : s.status j with
      | pending =>
        rw [hsj] at hjt
        exact absurd hjt (by simp [TStatus.isTerminal])
      | running =>
        rw [hsj] at hjt
        exact absurd hjt (by simp [TStatus.isTerminal])
      | finished v => simp [outcome]
      | errored e2 => simp [outcome]
    obtain ⟨os, hos, he⟩ := gather_error_aux _ e ks1 k ks2 hf1 hfk hf2
    unfold gather
    rw [hos]
    show some (exceptList os) = some (Except.error e)
    rw [he]

theorem gather_first_error_after_batch_witness :
    gather gWitState [1, 2, 3] = some (Except.error "boom") ∧
    gather gWitState [1, 2, 4] = none := by
  constructor
  · refine (gather_first_error_after_batch gWitState [1, 2, 3] [1] [3] 2 "boom").2 rfl ?_ rfl ?_
    · intro j hj
      have hj1 : j = 1 := by simpa using hj
      subst hj1
      exact ⟨10, rfl⟩
    · intro j hj
      have hj3 : j = 3 := by simpa using hj
      subst hj3
      rfl
  · exact (gather_first_error_after_batch gWitState [1, 2, 4] [] [] 0 "x").1
      ⟨4, by decide, rfl⟩

-- ---------- C6 ----------

theorem cycle_stepPeel (g : List (ℕ × List ℕ)) (C : List ℕ) (h : IsCycleSet g C) :
    IsCycleSet (stepPeel g) C := by
  obtain ⟨hne, hall⟩ := h
  refine ⟨hne, ?_⟩
  intro k hk
  obtain ⟨p, hp, hpk, d, hd, hdC⟩ := hall k hk
  have hdkeys : d ∈ graphKeys g := by
    obtain ⟨q, hq, hq1, _⟩ := hall d hdC
    exact List.mem_map.mpr ⟨q, hq, hq1⟩
  have hpmem : p ∈ stepPeel g := by
    unfold stepPeel
    rw [List.mem_filter]
    refine ⟨hp, ?_⟩
    rw [List.any_eq_true]
    exact ⟨d, hd, by simp [hdkeys]⟩
  exact ⟨p, hpmem, hpk, d, hd, hdC⟩

theorem cycle_peel (n : ℕ) : ∀ g C, IsCycleSet g C → IsCycleSet (peel n g) C := by
  induction n with
  | zero => intro g C h; exact h
  | succ m ih => intro g C h; exact ih (stepPeel g) C (cycle_stepPeel g C h)

theorem cycle_hasCycle (g : List (ℕ × List ℕ)) (C : List ℕ) (h : IsCycleSet g C) :
    hasCycle g = true := by
  obtain ⟨hne, hall⟩ := cycle_peel g.length g C h
  cases hC : C with
  | nil => exact absurd hC hne
  | cons c rest =>
    obtain ⟨p, hp, _⟩ := hall c (by rw [hC]; simp)
    unfold hasCycle
    cases hpl : peel g.length g with
    | nil =>
      rw [hpl] at hp
      cases hp
    | cons a l => rfl

/-- Claim C6: a submission whose dependency graph contains a cycle fails
synchronously with CyclicGraphError, and the Coordinator state — in
particular its dependency graph and its dispatched set — is left unchanged
by the failed submission. -/
theorem cyclic_submission_rejected (s : Sys) (new : List WorkItem) (C : List ℕ)
    (hc : IsCycleSet (graphOf (s.items ++ new)) C) :
    computeSubmit s new = Except.error SubmitError.CyclicGraphError ∧
    submitState s new = s ∧ (submitState s new).dispatched = s.dispatched := by
  have h := cycle_hasCycle _ C hc
  have h1 : computeSubmit s new = Except.error SubmitError.CyclicGraphError := by
    unfold computeSubmit
    rw [if_pos h]
  refine ⟨h1, ?_, ?_⟩
  · unfold submitState
    rw [h1]
  · unfold submitState
    rw [h1]

theorem cyclic_submission_rejected_witness :
    computeSubmit (init []) cyc2 = Except.error SubmitError.CyclicGraphError ∧
    submitState (init []) cyc2 = init [] := by
  have h := cyclic_submission_rejected (init []) cyc2 [0, 1] ⟨by decide, by decide⟩
  exact ⟨h.1, h.2.1⟩

-- ---------- C7 ----------

theorem mapSubmit_length (f : ℤ → ℤ) (xs : List ℤ) :
    ∀ k0, (mapSubmit f k0 xs).length = xs.length := by
  induction xs with
  | nil => intro k0; rfl
  | cons x rest ih =>
    intro k0
    simp only [mapSubmit, List.length_cons, ih]

theorem mapSubmit_keys (f : ℤ → ℤ) (xs : List ℤ) :
    ∀ k0, (mapSubmit f k0 xs).map (fun w => w.key) = List.range' k0 xs.length := by
  induction xs with
  | nil => intro k0; rfl
  | cons x rest ih =>
    intro k0
    simp only [mapSubmit, List.map_cons, List.length_cons, List.range'_succ, ih]

theorem mapSubmit_args (f : ℤ → ℤ) (xs : List ℤ) :
    ∀ k0, (mapSubmit f k0 xs).map (fun w => w.args) = xs.map fun x => [Arg.lit x] := by
  induction xs with
  | nil => intro k0; rfl
  | cons x rest ih =>
    intro k0
    simp only [mapSubmit, List.map_cons, ih]

theorem mapSubmit_fns (f : ℤ → ℤ) (xs : List ℤ) :
    ∀ k0, (mapSubmit f k0 xs).map (fun w => w.fn) = xs.map fun _ => call1 f := by
  induction xs with
  | nil => intro k0; rfl
  | cons x rest ih =>
    intro k0
    simp only [mapSubmit, List.map_cons, ih]

/-- Claim C7: map(f, xs) submits one work item per input and returns handles
in input order: as many handles as inputs, with consecutive fresh keys in
input order, the i-th work item carrying the i-th input as its only argument
and f as its callable; gathering the handles of map(inc, [1,2,3]) after all
three tasks ran yields [2, 3, 4] in that order. -/
theorem map_order_contract (f : ℤ → ℤ) (k0 : ℕ) (xs : List ℤ) :
    (mapSubmit f k0 xs).length = xs.length ∧
    (mapSubmit f k0 xs).map (fun w => w.key) = List.range' k0 xs.length ∧
    (mapSubmit f k0 xs).map (fun w => w.args) = (xs.map fun x => [Arg.lit x]) ∧
    (mapSubmit f k0 xs).map (fun w => w.fn) = (xs.map fun _ => call1 f) ∧
    (run (init (mapSubmit inc 0 [1, 2, 3]))
        [Ev.dispatch 0, Ev.report 0, Ev.dispatch 1, Ev.report 1,
         Ev.dispatch 2, Ev.report 2]).map (fun s => gather s [0, 1, 2]) =
      some (some (Except.ok [2, 3, 4])) :=
  ⟨mapSubmit_length f xs k0, mapSubmit_keys f xs k0, mapSubmit_args f xs k0,
    mapSubmit_fns f xs k0, rfl⟩

-- ---------- C8 ----------

/-- Claim C8: along every run from a fresh handle, the cluster-side result is
never released while any reference remains (and once released the key is
forgotten and the count is zero for good); and when the reference count
reaches zero while the result is still held, acquiring or releasing is
impossible and the reclaim step is the only enabled transition, which
releases the cluster-side result and forgets the key — so release and
forgetting are always eventually triggered under any fair continuation. -/
theorem refcount_release (es : List RefEv) (s : RefState)
    (h : runRef initRef es = some s) :
    (s.clusterHeld = false → s.refs = 0 ∧ s.known = false) ∧
    (s.refs = 0 → s.clusterHeld = true →
      applyRef s RefEv.acquire = none ∧ applyRef s RefEv.release = none ∧
      applyRef s RefEv.reclaim = some ⟨0, false, false⟩) := by
  constructor
  · have hgen : ∀ (es2 : List RefEv) (t : RefState),
        (t.clusterHeld = false → t.refs = 0 ∧ t.known = false) →
        runRef t es2 = some s → s.clusterHeld = false → s.refs = 0 ∧ s.known = false := by
      intro es2
      induction es2 with
      | nil =>
        intro t ht hrun
        exact (Option.some.inj hrun) ▸ ht
      | cons e rest ih =>
        intro t ht hrun
        unfold runRef at hrun
        split at hrun
        next t2 ha =>
          refine ih t2 ?_ hrun
          cases e with
          | acquire =>
            simp only [applyRef] at ha
            split at ha
            next hpos =>
              injection ha with ha
              subst ha
              intro hch
              obtain ⟨h0, _⟩ := ht hch
              omega
            next => exact Option.noConfusion ha
          | release =>
            simp only [applyRef] at ha
            split at ha
            next hpos =>
              injection ha with ha
              subst ha
              intro hch
              obtain ⟨h0, _⟩ := ht hch
              omega
            next => exact Option.noConfusion ha
          | reclaim =>
            simp only [applyRef] at ha
            split at ha
            next hcond =>
              injection ha with ha
              subst ha
              intro _
              exact ⟨rfl, rfl⟩
            next => exact Option.noConfusion ha
        next => exact Option.noConfusion hrun
    exact hgen es initRef (fun hch => absurd hch (by decide)) h
  · intro h0 h1
    refine ⟨?_, ?_, ?_⟩
    · simp only [applyRef]
      rw [if_neg (by omega)]
    · simp only [applyRef]
      rw [if_neg (by omega)]
    · simp only [applyRef]
      rw [if_pos ⟨h0, h1⟩]

theorem refcount_release_witness :
    ∃ s, runRef initRef [RefEv.release] = some s ∧
      applyRef s RefEv.reclaim = some ⟨0, false, false⟩ := by
  refine ⟨_, rfl, ?_⟩
  exact ((refcount_release [RefEv.release] _ rfl).2 rfl rfl).2.2

end DaskSpec
